import Mathlib

/-!
Verification of the Async-Doctor core against its sources.

The definitions below are shallow embeddings of the program's data model and
operations:

* `runAnalysisModel` / `runAnalysisE` embed `runAnalysis` of
  `cli/src/index.ts` (file walk results → per-file lint messages → global
  sort by (file, line, column) → sequential ids starting at 1).
* `hookInit`, `hookPromiseResolve`, `hookDestroy`, `flushExcept` embed the
  tracer's `async_hooks` callbacks and its exit-time `flush`.
* `parseLocation`, `crossReference`, `mergeReportWithExec` embed the server's
  trace/finding correlator (`server/src/server.ts`).
* `awaitInLoopFindings`, `asyncAwaitedReturnCheck`, `executorOneArgUsedReports`
  and `redundantWrapperFix` embed the four lint rules the claims mention,
  over a small syntax-tree type mirroring the ESTree shapes those rules
  inspect.

Machine numbers in the sources are JavaScript numbers used only as
non-negative integers (line/column numbers, counters, ids); they are
modelled as `Nat`.  Timestamps (`performance.now()` deltas) are modelled as
`Nat` as well: every claim about them concerns only their relative order and
single assignment, never float arithmetic.
-/

namespace AsyncDoctor

/-! ## Static analyzer (`cli/src/index.ts`, `runAnalysis`) -/

/-- Lint message for one file, as produced by `linter.verify`: the fields of
the `results.push({...})` record of `runAnalysis` that do not depend on the
file path. -/
structure Msg where
  line : Nat
  column : Nat
  pattern : String
  message : String
  fixable : Bool
deriving DecidableEq

/-- Finding record of `runAnalysis` (`{id, file, line, column, pattern,
message, fixable}`). -/
structure Finding where
  id : Nat
  file : String
  line : Nat
  column : Nat
  pattern : String
  message : String
  fixable : Bool
deriving DecidableEq

/-- Embeds the `results.push` step of `runAnalysis`: a lint message for file
`file` becomes a finding with the temporary id `0` ("will assign after
sorting"). -/
def mkFinding (file : String) (m : Msg) : Finding :=
  { id := 0, file := file, line := m.line, column := m.column,
    pattern := m.pattern, message := m.message, fixable := m.fixable }

/-- Findings contributed by one file (the body of the `files.forEach`
loop of `runAnalysis`, for one file). -/
def tagFile (fm : String × List Msg) : List Finding :=
  fm.2.map (mkFinding fm.1)

/-- Findings of all files in file-enumeration order (the whole
`files.forEach` collection loop of `runAnalysis`). -/
def collect (files : List (String × List Msg)) : List Finding :=
  files.flatMap tagFile

/-- The comparator passed to `results.sort` in `runAnalysis`:
file ascending, then line ascending, then `a.column - b.column`. -/
def compareFindings (a b : Finding) : Int :=
  if a.file < b.file then -1
  else if b.file < a.file then 1
  else if a.line < b.line then -1
  else if b.line < a.line then 1
  else (a.column : Int) - (b.column : Int)

/-- Relation "the comparator orders `a` no later than `b`". -/
def findingLE (a b : Finding) : Prop :=
  compareFindings a b ≤ 0

instance : DecidableRel findingLE := fun a b => by
  unfold findingLE; infer_instance

/-- Embeds `results.sort(...)`: JavaScript `Array.prototype.sort` is a
stable sort w.r.t. the comparator, modelled extensionally by stable
insertion sort. -/
def sortFindings (L : List Finding) : List Finding :=
  L.insertionSort findingLE

/-- Embeds `results.forEach((res, idx) => { res.id = idx + 1 })` starting
from id `n`. -/
def assignIdsFrom (n : Nat) : List Finding → List Finding
  | [] => []
  | f :: L => { f with id := n } :: assignIdsFrom (n + 1) L

/-- Sequential ids starting at 1. -/
def assignIds (L : List Finding) : List Finding :=
  assignIdsFrom 1 L

/-- The pure tail of `runAnalysis`, given the per-file lint messages: sort
all collected findings by (file, line, column) and assign sequential ids
starting at 1. -/
def runAnalysisModel (files : List (String × List Msg)) : List Finding :=
  assignIds (sortFindings (collect files))

/-! ## Analyzer with exception semantics (`runAnalysis` + `linter.verify`)

`runAnalysis` calls the external ESLint `linter.verify` once per file with no
surrounding `try`.  ESLint's documented contract is that an exception thrown
by a rule listener is rethrown out of `verify` (augmented with "Occurred
while linting" context), so `verifyModel` below models `verify` as running
every registered rule on every node in traversal order and propagating the
first rule exception.  `α` is the type of syntax-tree nodes; a rule is a
function from a node to either a thrown error or an optional message. -/

/-- Embeds `linter.verify`: all rules are invoked per node in one traversal;
matches accumulate in traversal order; a rule exception propagates. -/
def verifyModel {α : Type} (rules : List (α → Except String (Option Msg)))
    (nodes : List α) : Except String (List Msg) :=
  nodes.foldlM
    (fun acc n =>
      rules.foldlM
        (fun acc2 r => do
          match ← r n with
          | some m => pure (acc2 ++ [m])
          | none => pure acc2)
        acc)
    []

/-- The `files.forEach` loop of `runAnalysis` with exception flow: each
file is verified in order; an exception from `linter.verify` propagates and
the remaining files are never visited. -/
def verifyFiles {α : Type} (rules : List (α → Except String (Option Msg))) :
    List (String × List α) → Except String (List (String × List Msg))
  | [] => Except.ok []
  | fp :: fps => do
      let msgs ← verifyModel rules fp.2
      let rest ← verifyFiles rules fps
      pure ((fp.1, msgs) :: rest)

/-- Embeds `runAnalysis` including exception flow: the `files.forEach` body
reads a file and calls `linter.verify`; no exception is caught anywhere in
`runAnalysis`, so a rule exception aborts the whole run before the sort/id
phase. -/
def runAnalysisE {α : Type} (rules : List (α → Except String (Option Msg)))
    (files : List (String × List α)) : Except String (List Finding) := do
  let perFile ← verifyFiles rules files
  pure (runAnalysisModel perFile)

/-! ## Tracer (`tracer` hook module, `src/unnamed/part_002`) -/

/-- Origin classification of a tracked task's call site. -/
inductive Origin where
  | user
  | library
  | io
deriving DecidableEq

/-- PromiseEvent record of the tracer (`end` is `endTime` here because `end`
is reserved in Lean). -/
structure TEvent where
  id : Nat
  triggerId : Nat
  type : String
  start : Nat
  endTime : Option Nat
  location : Option String
  origin : Option Origin
deriving DecidableEq

/-- The tracer's `events` store: a `Map<number, PromiseEvent>`, i.e. an
association list with distinct keys kept in insertion order (JavaScript
`Map` iteration order). -/
abbrev TraceState := List (Nat × TEvent)

/-- `events.get(k)`. -/
def mapGet (s : TraceState) (k : Nat) : Option TEvent :=
  (s.find? (fun p => p.1 = k)).map (fun p => p.2)

/-- `events.set(k, v)`: replace in place when the key exists, append
otherwise. -/
def mapSet (s : TraceState) (k : Nat) (v : TEvent) : TraceState :=
  if s.any (fun p => p.1 = k) then
    s.map (fun p => if p.1 = k then (k, v) else p)
  else
    s ++ [(k, v)]

/-- `init` hook: only `PROMISE` resources are tracked; a tracked task gets
its async id, its causal trigger id, a relative creation timestamp `t`, an
optional call site and origin, and no end timestamp. -/
def hookInit (s : TraceState) (asyncId triggerId : Nat) (ty : String)
    (t : Nat) (loc : Option String) (org : Option Origin) : TraceState :=
  if ty = "PROMISE" then
    mapSet s asyncId
      { id := asyncId, triggerId := triggerId, type := ty, start := t,
        endTime := none, location := loc, origin := org }
  else s

/-- Shared body of the `promiseResolve` and `destroy` hooks: stamp the end
timestamp only if one is not already set. -/
def closeEvent (s : TraceState) (asyncId : Nat) (t : Nat) : TraceState :=
  match mapGet s asyncId with
  | some evt =>
      if evt.endTime = none then
        mapSet s asyncId { evt with endTime := some t }
      else s
  | none => s

/-- `promiseResolve` hook. -/
def hookPromiseResolve (s : TraceState) (asyncId : Nat) (t : Nat) : TraceState :=
  closeEvent s asyncId t

/-- `destroy` hook ("if GC/cleanup occurs before resolve hook fires, close
the event"). -/
def hookDestroy (s : TraceState) (asyncId : Nat) (t : Nat) : TraceState :=
  closeEvent s asyncId t

/-- One lifecycle callback invocation, with the `nowRel()` timestamp it
would observe as payload. -/
inductive HookOp where
  | init (asyncId triggerId : Nat) (ty : String) (t : Nat)
      (loc : Option String) (org : Option Origin)
  | promiseResolve (asyncId : Nat) (t : Nat)
  | destroy (asyncId : Nat) (t : Nat)
deriving DecidableEq

/-- Apply one hook callback to the event store. -/
def applyOp (s : TraceState) : HookOp → TraceState
  | .init a g ty t l o => hookInit s a g ty t l o
  | .promiseResolve a t => hookPromiseResolve s a t
  | .destroy a t => hookDestroy s a t

/-- Apply a sequence of hook callbacks in order. -/
def applyOps (s : TraceState) (ops : List HookOp) : TraceState :=
  ops.foldl applyOp s

/-- End timestamp currently recorded for task `aid`, if any. -/
def endOf (s : TraceState) (aid : Nat) : Option Nat :=
  (mapGet s aid).bind (fun e => e.endTime)

/-- Timestamp carried by a settlement or teardown callback for task `aid`
(`none` for callbacks of other tasks and for `init`). -/
def settleTime (aid : Nat) : HookOp → Option Nat
  | .promiseResolve a t => if a = aid then some t else none
  | .destroy a t => if a = aid then some t else none
  | .init _ _ _ _ _ _ => none

/-- Whether a callback is an `init` for task `aid` (ids are unique within a
session, so such an op never reappears for a live task). -/
def isInitFor (aid : Nat) : HookOp → Bool
  | .init a _ _ _ _ _ => a = aid
  | _ => false

/-! ### Tracer flush -/

/-- Relation used by `arr.sort((a, b) => a.start - b.start)` in `flush`. -/
def startLE (a b : TEvent) : Prop :=
  a.start ≤ b.start

instance : DecidableRel startLE := fun a b => by
  unfold startLE; infer_instance

/-- Embeds the `arr.sort((a, b) => a.start - b.start)` step of `flush`
(stable JavaScript sort, modelled extensionally by stable insertion sort). -/
def sortByStart (l : List TEvent) : List TEvent :=
  l.insertionSort startLE

/-- The event array `flush` serializes: `Array.from(events.values())` sorted
by creation timestamp. -/
def flushContent (s : TraceState) : List TEvent :=
  sortByStart (s.map (fun p => p.2))

/-- Result of one `flush` call: the content written to the trace file (as the
event list it serializes), if the write succeeded, and the messages printed
to the controlling terminal via `console.error`. -/
structure FlushLog where
  written : Option (List TEvent)
  consoleErrors : List String
deriving DecidableEq

/-- Success message of `flush`. -/
def flushOkMsg (n : Nat) (outPath : String) : String :=
  "Async Doctor tracer: wrote " ++ toString n ++ " events to " ++ outPath

/-- Failure message of `flush`. -/
def flushErrMsg (e : String) : String :=
  "Async Doctor tracer: failed to write trace: " ++ e

/-- Embeds `flush`: the whole body sits in a `try` whose `catch` reports the
failure on `console.error`; `write` stands for `safeWriteFileSync`, the only
fallible step.  The result is in `Except` so that "an exception escapes
`flush`" is representable — the theorems show it never happens. -/
def flushExcept (write : List TEvent → Except String Unit)
    (outPath : String) (s : TraceState) : Except String FlushLog :=
  tryCatch
    (do
      let arr := flushContent s
      write arr
      pure { written := some arr,
             consoleErrors := [flushOkMsg arr.length outPath] })
    (fun e => pure { written := none, consoleErrors := [flushErrMsg e] })

/-- The process hooks `flush` is registered for
(`process.on('beforeExit'|'exit'|'SIGINT'|'SIGTERM', ...)`). -/
def registeredExitHooks : List String :=
  ["beforeExit", "exit", "SIGINT", "SIGTERM"]

/-- What firing one process hook does to the trace output: every registered
hook runs the same `flush`; an unregistered event runs nothing. -/
def runExitHook (hook : String) (write : List TEvent → Except String Unit)
    (outPath : String) (s : TraceState) : Option (Except String FlushLog) :=
  if hook ∈ registeredExitHooks then some (flushExcept write outPath s)
  else none

/-! ## Correlator (`server/src/server.ts`) -/

/-- Trace event as the server consumes it (`TraceEvent` in `server.ts`);
only `location` and `origin` matter to `crossReference`, the other fields
are carried for completeness. -/
structure SrvEvent where
  id : Nat
  triggerId : Option Nat
  type : Option String
  start : Option Nat
  endTime : Option Nat
  location : Option String
  origin : Option String
deriving DecidableEq

/-- Static finding as stored in the report the server reads; the fields
`crossReference` touches. -/
structure SFinding where
  id : Nat
  file : String
  funcStart : Nat
  funcSnippet : String
  rule : String
deriving DecidableEq

/-- Static report (`report.findings`). -/
structure SReport where
  findings : List SFinding
deriving DecidableEq

/-- Splits off the suffix after the last `':'`: `some (before, after)` when
the list contains a colon, `none` otherwise. -/
def lastColonSplit : List Char → Option (List Char × List Char)
  | [] => none
  | c :: cs =>
      match lastColonSplit cs with
      | some (p, d) => some (c :: p, d)
      | none => if c = ':' then some ([], cs) else none

/-- Digit run to a number, as `Number(...)` reads a decimal string. -/
def digitsToNat (ds : List Char) : Nat :=
  ds.foldl (fun n c => n * 10 + (c.toNat - 48)) 0

/-- Embeds `parseLocation` of `server.ts`, i.e. the JavaScript match
`loc.match(/^(.*):(\d+)(?::\d+)?$/)` with its greedy backtracking: the
regex matches exactly when the text after the last colon is a nonempty
digit run, `(.*)` captures everything before that last colon, and `(\d+)`
captures that final digit run (the optional `(?::\d+)?` group never
consumes anything, because `(.*)` is greedy). -/
def parseLocation (loc : String) : Option (String × Nat) :=
  match lastColonSplit loc.data with
  | some (p, d) =>
      if d ≠ [] ∧ d.all Char.isDigit then
        some (String.mk p, digitsToNat d)
      else none
  | none => none

/-- Drops `pre` from the front of `l` when `pre` leads `l`. -/
def stripLead : List Char → List Char → Option (List Char)
  | [], rest => some rest
  | _, [] => none
  | p :: ps, c :: cs => if p = c then stripLead ps cs else none

/-- Models the external `path.relative(root, abs)` call (followed by the
`.replace(/\\/g, '/')` normalization, a no-op on the slash-normalized
locations the tracer emits) on the domain the server exercises: when `abs`
lies directly under `root` the project-relative path is the remaining
suffix; otherwise the path is returned unchanged (the `..`-insertion of
`path.relative` for unrelated paths is irrelevant to the claims, which only
compare the result with findings' relative paths). -/
def relativeTo (root abs : String) : String :=
  match stripLead (root.data ++ [Char.ofNat 47]) abs.data with
  | some rest => String.mk rest
  | none => abs

/-- Number of parts of `String(s).split(/\r?\n/)`: one more than the number
of line separators, where `"\r\n"` counts as a single separator. -/
def splitLinesCount : List Char → Nat
  | [] => 1
  | [c] => if c = Char.ofNat 10 then 2 else 1
  | c :: c' :: cs =>
      if c = Char.ofNat 13 ∧ c' = Char.ofNat 10 then splitLinesCount cs + 1
      else if c = Char.ofNat 10 then splitLinesCount (c' :: cs) + 1
      else splitLinesCount (c' :: cs)

/-- Inclusive function line range computed by `crossReference` for one
finding: `{id, file, start := funcStart, end := funcStart + fnLen - 1,
rule}` where `fnLen` is the line count of `funcSnippet`. -/
structure FnRange where
  id : Nat
  file : String
  start : Nat
  stop : Nat
  rule : String
deriving DecidableEq

/-- The `fnRanges` array of `crossReference`. -/
def mkRanges (report : SReport) : List FnRange :=
  report.findings.map (fun f =>
    let fnLen := splitLinesCount f.funcSnippet.data
    { id := f.id, file := f.file, start := f.funcStart,
      stop := f.funcStart + fnLen - 1, rule := f.rule })

/-- `record[k] = (record[k] || 0) + 1` on an association-list model of a
JavaScript object with `Nat` keys (distinct keys; `Object.keys(...).length`
is its length). -/
def bumpNat (m : List (Nat × Nat)) (k : Nat) : List (Nat × Nat) :=
  if m.any (fun p => p.1 = k) then
    m.map (fun p => if p.1 = k then (p.1, p.2 + 1) else p)
  else m ++ [(k, 1)]

/-- Same for `String` keys (`byRuleExecuted`). -/
def bumpStr (m : List (String × Nat)) (k : String) : List (String × Nat) :=
  if m.any (fun p => p.1 = k) then
    m.map (fun p => if p.1 = k then (p.1, p.2 + 1) else p)
  else m ++ [(k, 1)]

/-- Mutable locals of the `for (const ev of events)` loop of
`crossReference`. -/
structure XAcc where
  execCounts : List (Nat × Nat)
  byRuleExecuted : List (String × Nat)
  userEvents : Nat
  libEvents : Nat
deriving DecidableEq

/-- The parsed location of an event, `none` when `ev.location` is absent or
does not match the regex (`ev.location && parseLocation(ev.location)` being
falsy; an empty location string is falsy and also fails the regex). -/
def locOf (ev : SrvEvent) : Option (String × Nat) :=
  ev.location.bind parseLocation

/-- The `for (const r of fnRanges)` loop of `crossReference`: every range
whose file equals the event's relative file and whose inclusive line range
contains the event's line gets its finding counter and its rule counter
bumped. -/
def bumpRanges (ranges : List FnRange) (rel : String) (line : Nat)
    (acc : XAcc) : XAcc :=
  ranges.foldl
    (fun a r =>
      if r.file = rel ∧ r.start ≤ line ∧ line ≤ r.stop then
        { a with execCounts := bumpNat a.execCounts r.id,
                 byRuleExecuted := bumpStr a.byRuleExecuted r.rule }
      else a)
    acc

/-- One iteration of the event loop of `crossReference`: an unparseable
location hits `continue` before everything else; otherwise every range
containing the event's (relative file, line) is bumped, and then the origin
tally (`ev.origin === 'user'` vs everything else) is incremented. -/
def xStep (root : String) (ranges : List FnRange) (acc : XAcc)
    (ev : SrvEvent) : XAcc :=
  match locOf ev with
  | none => acc
  | some (abs, line) =>
      let acc1 := bumpRanges ranges (relativeTo root abs) line acc
      if ev.origin = some "user" then
        { acc1 with userEvents := acc1.userEvents + 1 }
      else
        { acc1 with libEvents := acc1.libEvents + 1 }

/-- Summary part of the overlay. -/
structure XSummary where
  totalTraceEvents : Nat
  userEvents : Nat
  libEvents : Nat
  executedFindingCount : Nat
  byRuleExecuted : List (String × Nat)
deriving DecidableEq

/-- Overlay returned by `crossReference`. -/
structure Overlay where
  execCounts : List (Nat × Nat)
  summary : XSummary
deriving DecidableEq

/-- Embeds `crossReference(root, report, events)`. -/
def crossReference (root : String) (report : SReport)
    (events : List SrvEvent) : Overlay :=
  let ranges := mkRanges report
  let acc := events.foldl (xStep root ranges)
    { execCounts := [], byRuleExecuted := [], userEvents := 0, libEvents := 0 }
  { execCounts := acc.execCounts,
    summary :=
      { totalTraceEvents := events.length,
        userEvents := acc.userEvents,
        libEvents := acc.libEvents,
        executedFindingCount := acc.execCounts.length,
        byRuleExecuted := acc.byRuleExecuted } }

/-! ## Suspend-in-loop rule (`cli/src/rules/awaitInLoop.ts`)

Statement-level syntax tree for this rule: the node kinds the rule
registers interest in (`AwaitExpression`) and the ancestor kinds it
inspects (the five loop statements, with the `await` flag on
`for-of`); every other syntactic shape is a `leaf`, and `seqStmt`
renders multi-statement bodies.  Each node that can be reported carries
the source location it would be reported at, as a single `Nat`. -/

inductive JNode where
  | forStmt (loc : Nat) (body : JNode)
  | forInStmt (loc : Nat) (body : JNode)
  | forOfStmt (loc : Nat) (isAwait : Bool) (body : JNode)
  | whileStmt (loc : Nat) (body : JNode)
  | doWhileStmt (loc : Nat) (body : JNode)
  | awaitExpr (loc : Nat) (arg : JNode)
  | seqStmt (first second : JNode)
  | leaf (loc : Nat)
deriving DecidableEq

/-- Whether an ancestor triggers a report in the rule's loop over
`context.getAncestors()`: it must be one of the five loop kinds
(otherwise `continue`), and an awaited `for-of` is also skipped
(`continue`). -/
def flaggedLoop : JNode → Bool
  | .forStmt _ _ => true
  | .forInStmt _ _ => true
  | .forOfStmt _ aw _ => !aw
  | .whileStmt _ _ => true
  | .doWhileStmt _ _ => true
  | _ => false

/-- Verdict of the rule's `AwaitExpression` callback for an ancestor chain:
the loop body reports (once, it `break`s after the first report) exactly
when some ancestor is a loop that is not an awaited `for-of`.  The model
keeps ancestors innermost-first; the verdict is order-independent. -/
def awaitInLoopCheck (ancestors : List JNode) : Bool :=
  ancestors.any flaggedLoop

/-- Single depth-first traversal invoking the rule's `AwaitExpression`
callback at every await expression, with the explicit ancestor stack; the
result lists the locations of the reported findings in traversal order. -/
def awaitInLoopVisit (ancestors : List JNode) : JNode → List Nat
  | .forStmt l b => awaitInLoopVisit (.forStmt l b :: ancestors) b
  | .forInStmt l b => awaitInLoopVisit (.forInStmt l b :: ancestors) b
  | .forOfStmt l aw b => awaitInLoopVisit (.forOfStmt l aw b :: ancestors) b
  | .whileStmt l b => awaitInLoopVisit (.whileStmt l b :: ancestors) b
  | .doWhileStmt l b => awaitInLoopVisit (.doWhileStmt l b :: ancestors) b
  | .awaitExpr l a =>
      (if awaitInLoopCheck ancestors then [l] else []) ++
        awaitInLoopVisit (.awaitExpr l a :: ancestors) a
  | .seqStmt a b =>
      awaitInLoopVisit (.seqStmt a b :: ancestors) a ++
        awaitInLoopVisit (.seqStmt a b :: ancestors) b
  | .leaf _ => []

/-- Findings of the suspend-in-loop rule on a whole tree. -/
def awaitInLoopFindings (root : JNode) : List Nat :=
  awaitInLoopVisit [] root

/-- Locations of all await expressions in a tree, in traversal order. -/
def awaitLocs : JNode → List Nat
  | .forStmt _ b => awaitLocs b
  | .forInStmt _ b => awaitLocs b
  | .forOfStmt _ _ b => awaitLocs b
  | .whileStmt _ b => awaitLocs b
  | .doWhileStmt _ b => awaitLocs b
  | .awaitExpr l a => l :: awaitLocs a
  | .seqStmt a b => awaitLocs a ++ awaitLocs b
  | .leaf _ => []

/-- Whether a tree contains any loop statement. -/
def hasLoopNode : JNode → Bool
  | .forStmt _ _ => true
  | .forInStmt _ _ => true
  | .forOfStmt _ _ _ => true
  | .whileStmt _ _ => true
  | .doWhileStmt _ _ => true
  | .awaitExpr _ a => hasLoopNode a
  | .seqStmt a b => hasLoopNode a || hasLoopNode b
  | .leaf _ => false

/-! ## Redundant-suspended-return rule
(`cli/src/rules/asyncFunctionAwaitedReturn.ts`)

This rule is a pure callback on a `ReturnStatement` node and its ancestor
chain; the embedding works at that callback level.  Ancestors are listed
outermost-first, as `context.getAncestors()` returns them. -/

inductive AncNode where
  | functionDeclaration (isAsync : Bool)
  | functionExpression (isAsync : Bool)
  | arrowFunctionExpression (isAsync : Bool)
  | tryStatement
  | blockStatement
  | otherStatement
deriving DecidableEq

/-- The three function kinds the rule's `find` recognizes. -/
def isFunctionAnc : AncNode → Bool
  | .functionDeclaration _ => true
  | .functionExpression _ => true
  | .arrowFunctionExpression _ => true
  | _ => false

/-- The `async` flag of a function ancestor. -/
def ancIsAsync : AncNode → Bool
  | .functionDeclaration a => a
  | .functionExpression a => a
  | .arrowFunctionExpression a => a
  | _ => false

/-- `ancestor.type === AST_NODE_TYPES.TryStatement`. -/
def isTryAnc : AncNode → Bool
  | .tryStatement => true
  | _ => false

/-- Argument of the return statement under inspection. -/
inductive RetArg where
  | awaitArg (awaitLoc : Nat)
  | otherArg
  | noArg
deriving DecidableEq

/-- Textual fix synthesized by a rule. -/
inductive FixCmd where
  | removeToken (loc : Nat)
deriving DecidableEq

/-- Report produced by a rule: reported location plus the optional fix
(`fix(fixer)` returning `null` is `none`). -/
structure RuleReport where
  loc : Nat
  fix : Option FixCmd
deriving DecidableEq

/-- Embeds the `ReturnStatement` callback of the rule: report when the
return argument is an await expression and the innermost enclosing
function (`[...ancestors].reverse().find(...)`) is async; the fix removes
the first token of the argument (the `await` keyword, sitting at the
argument's own location) unless some ancestor is a `try` statement, in
which case `fix` returns `null`. -/
def asyncAwaitedReturnCheck (arg : RetArg) (ancestors : List AncNode) :
    Option RuleReport :=
  match arg with
  | .awaitArg l =>
      match ancestors.reverse.find? isFunctionAnc with
      | some f =>
          if ancIsAsync f then
            some { loc := l,
                   fix := if ancestors.any isTryAnc then none
                          else some (.removeToken l) }
          else none
      | none => none
  | _ => none

/-! ## Expression trees for the Promise-executor rules
(`src/unnamed/part_003`, `cli/src/rules/redundantNewPromiseWrapper.ts`)

The node shapes these two rules inspect: identifiers, literals, member
accesses (a non-computed member carries its property as a raw name, so the
property position is never an identifier node — exactly the position
`isIdentifierUsed` skips; a computed member carries a property node, which
is traversed), calls, `new` expressions, functions (whose parameters are
identifier names, the only parameter shape the rules accept), blocks and
expression statements. -/

inductive FuncKind where
  | functionExpression
  | arrowFunctionExpression
  | functionDeclaration
deriving DecidableEq

mutual
inductive ENode where
  | ident (name : String)
  | numLit (v : Nat)
  | memberDot (obj : ENode) (prop : String)
  | memberBracket (obj : ENode) (prop : ENode)
  | callE (callee : ENode) (args : EList)
  | newE (callee : ENode) (args : EList)
  | funcE (kind : FuncKind) (isAsync : Bool) (params : List String) (body : ENode)
  | blockE (stmts : EList)
  | exprStmt (e : ENode)
deriving DecidableEq
inductive EList where
  | nil
  | cons (head : ENode) (tail : EList)
deriving DecidableEq
end

/-- `arguments.length` / `body.length` of a node list. -/
def eListLength : EList → Nat
  | .nil => 0
  | .cons _ t => eListLength t + 1

/-- Index access `xs[i]` on a node list. -/
def eListGet? : EList → Nat → Option ENode
  | .nil, _ => none
  | .cons h _, 0 => some h
  | .cons _ t, n + 1 => eListGet? t n

mutual
/-- Embeds `isIdentifierUsed(name, func)` of the `executor-one-arg-used`
rule, run from the executor's body: an identifier named `name` occurs and
is reachable without crossing a function whose parameters shadow `name`,
where the property of a non-computed member access does not count as an
occurrence (the `parent.property === node && !parent.computed` skip). -/
def usedIn (name : String) : ENode → Bool
  | .ident n => n = name
  | .numLit _ => false
  | .memberDot obj _ => usedIn name obj
  | .memberBracket obj p => usedIn name obj || usedIn name p
  | .callE c args => usedIn name c || usedInList name args
  | .newE c args => usedIn name c || usedInList name args
  | .funcE _ _ params body => if name ∈ params then false else usedIn name body
  | .blockE stmts => usedInList name stmts
  | .exprStmt e => usedIn name e
/-- `usedIn` over a node list. -/
def usedInList (name : String) : EList → Bool
  | .nil => false
  | .cons h t => usedIn name h || usedInList name t
end

/-- Whether the executor uses its first completion callable
(`usesResolve`: `params[0]` exists — always an identifier in this tree —
and `isIdentifierUsed` holds for it). -/
def usesResolveOf (params : List String) (body : ENode) : Bool :=
  match params.get? 0 with
  | some p => usedIn p body
  | none => false

/-- `usesReject` for `params[1]`. -/
def usesRejectOf (params : List String) (body : ENode) : Bool :=
  match params.get? 1 with
  | some p => usedIn p body
  | none => false

/-- How many of the two completion callables the executor uses. -/
def usedCallableCount (params : List String) (body : ENode) : Nat :=
  (if usesResolveOf params body then 1 else 0) +
    (if usesRejectOf params body then 1 else 0)

/-- Embeds the `NewExpression` callback of the `executor-one-arg-used`
rule: on `new Promise(executor)` with a single function or arrow executor,
report when `paramCount < 2 || !(usesResolve && usesReject)`. -/
def executorOneArgUsedReports : ENode → Bool
  | .newE (.ident pc) (.cons (.funcE k _ params body) .nil) =>
      if pc = "Promise" ∧ k ≠ .functionDeclaration then
        decide (params.length < 2) ||
          !(usesResolveOf params body && usesRejectOf params body)
      else false
  | _ => false

/-! ## Redundant-wrapper rule (`redundantNewPromiseWrapper.ts`) -/

/-- Comma-separated parameter names. -/
def paramsText : List String → String
  | [] => ""
  | [p] => p
  | p :: ps => p ++ ", " ++ paramsText ps

mutual
/-- Models `sourceCode.getText(node)` of the Syntax Provider: the exact
source text of a node, rendered canonically from the tree (the shallow
embedding carries no byte spans, so a node's text is its canonical
rendering). -/
def srcText : ENode → String
  | .ident n => n
  | .numLit v => toString v
  | .memberDot o p => srcText o ++ "." ++ p
  | .memberBracket o p => srcText o ++ "[" ++ srcText p ++ "]"
  | .callE c args => srcText c ++ "(" ++ srcTextList args ++ ")"
  | .newE c args => "new " ++ srcText c ++ "(" ++ srcTextList args ++ ")"
  | .funcE k a ps b =>
      (if a then "async " else "") ++
        (if k = .arrowFunctionExpression then
          "(" ++ paramsText ps ++ ") => " ++ srcText b
        else "function (" ++ paramsText ps ++ ") " ++ srcText b)
  | .blockE stmts => "\x7b " ++ srcTextList stmts ++ " \x7d"
  | .exprStmt e => srcText e ++ ";"
/-- Comma-separated rendering of a node list. -/
def srcTextList : EList → String
  | .nil => ""
  | .cons h .nil => srcText h
  | .cons h t => srcText h ++ ", " ++ srcTextList t
end

/-- `executor.body.body.find(stmt => stmt.type === ExpressionStatement)`,
projected to its `.expression`. -/
def firstExprStmtExpr : EList → Option ENode
  | .nil => none
  | .cons (ENode.exprStmt e) _ => some e
  | .cons _ t => firstExprStmtExpr t

/-- The object of a `.then` callee: the callee must be a member expression
whose property is an identifier named `then` (the source does not test
`computed`, so a computed `p[then]` access with an identifier key also
matches). -/
def calleeThenObj : ENode → Option ENode
  | .memberDot o p => if p = "then" then some o else none
  | .memberBracket o (.ident n) => if n = "then" then some o else none
  | _ => none

/-- The `replacement` computed by the `NewExpression` callback of the
`redundant-new-promise-wrapper` rule, when `isRedundant` ends up set.
Branch 1 (`p.then(resolve, ...)` forwarding): the first expression
statement of the executor block calls `.then` on some object with at least
one argument, and the first argument is the identifier of the executor's
first parameter; both sub-branches of the source (second argument matching
the second parameter, or not) assign `replacement = base`, the `.then`
object's source text.  Branch 2 (single completion call): the block's only
statement is `resolveParam(arg)` with exactly one argument of identifier,
call or member shape; the replacement is the argument's source text. -/
def redundantWrapperRepl : ENode → Option String
  | .newE (.ident pc) (.cons (.funcE k _ params body) .nil) =>
      if pc = "Promise" ∧ k ≠ .functionDeclaration then
        let branch1 : Option String :=
          match body with
          | .blockE stmts =>
              match firstExprStmtExpr stmts with
              | some (ENode.callE callee args) =>
                  match calleeThenObj callee with
                  | some obj =>
                      match eListGet? args 0, params.get? 0 with
                      | some (ENode.ident a0), some p0 =>
                          if a0 = p0 then some (srcText obj) else none
                      | _, _ => none
                  | none => none
              | _ => none
          | _ => none
        match branch1 with
        | some r => some r
        | none =>
            match params.get? 0 with
            | some res =>
                match body with
                | .blockE (EList.cons
                    (ENode.exprStmt (ENode.callE (ENode.ident cn)
                      (EList.cons arg EList.nil))) EList.nil) =>
                    if cn = res then
                      match arg with
                      | .ident _ => some (srcText arg)
                      | .callE _ _ => some (srcText arg)
                      | .memberDot _ _ => some (srcText arg)
                      | .memberBracket _ _ => some (srcText arg)
                      | _ => none
                    else none
                | _ => none
            | none => none
      else none
  | _ => none

/-- Suggested fix of the rule: `fixer.replaceText(node, replacement)` is
issued when `isRedundant && replacement` — a non-null, nonempty
replacement string (an empty string is falsy in JavaScript). -/
def redundantWrapperFix (node : ENode) : Option String :=
  match redundantWrapperRepl node with
  | some r => if r = "" then none else some r
  | none => none

/-! ## Theorems

### Stable-sort toolbox for C1 -/

theorem insertionSort_append {α : Type} (r : α → α → Prop) [DecidableRel r]
    (xs ys : List α) :
    (xs ++ ys).insertionSort r
      = xs.foldr (List.orderedInsert r) (ys.insertionSort r) := by
  induction xs with
  | nil => rfl
  | cons x xs ih => simp [List.insertionSort, ih]

theorem orderedInsert_strict_comm {α : Type} (r : α → α → Prop)
    [DecidableRel r] [IsTrans α r] (a b : α) (hab : r a b) (hba : ¬r b a)
    (L : List α) :
    List.orderedInsert r a (List.orderedInsert r b L)
      = List.orderedInsert r b (List.orderedInsert r a L) := by
  induction L with
  | nil => simp [List.orderedInsert, if_pos hab, if_neg hba]
  | cons x L ih =>
      by_cases hbx : r b x
      · have hax : r a x := IsTrans.trans a b x hab hbx
        simp [List.orderedInsert, if_pos hbx, if_pos hax, if_pos hab,
          if_neg hba]
      · by_cases hax : r a x
        · simp [List.orderedInsert, if_neg hbx, if_pos hax, if_neg hba]
        · simp [List.orderedInsert, if_neg hbx, if_neg hax, ih]

theorem orderedInsert_foldr_comm {α : Type} (r : α → α → Prop)
    [DecidableRel r] [IsTrans α r] [IsTotal α r] (a : α) (ys : List α)
    (h : ∀ b ∈ ys, ¬(r a b ∧ r b a)) (S : List α) :
    List.orderedInsert r a (ys.foldr (List.orderedInsert r) S)
      = ys.foldr (List.orderedInsert r) (List.orderedInsert r a S) := by
  induction ys with
  | nil => rfl
  | cons y ys ih =>
      have hy : ¬(r a y ∧ r y a) := h y (List.mem_cons_self y ys)
      have hcomm : ∀ M : List α,
          List.orderedInsert r a (List.orderedInsert r y M)
            = List.orderedInsert r y (List.orderedInsert r a M) := by
        intro M
        rcases IsTotal.total (r := r) a y with hay | hya
        · have hnya : ¬r y a := fun h2 => hy ⟨hay, h2⟩
          exact orderedInsert_strict_comm r a y hay hnya M
        · have hnay : ¬r a y := fun h2 => hy ⟨h2, hya⟩
          exact (orderedInsert_strict_comm r y a hya hnay M).symm
      have ih' := ih (fun b hb => h b (List.mem_cons_of_mem y hb))
      calc List.orderedInsert r a
            ((y :: ys).foldr (List.orderedInsert r) S)
          = List.orderedInsert r a
              (List.orderedInsert r y (ys.foldr (List.orderedInsert r) S)) :=
            rfl
        _ = List.orderedInsert r y
              (List.orderedInsert r a (ys.foldr (List.orderedInsert r) S)) :=
            hcomm _
        _ = List.orderedInsert r y
              (ys.foldr (List.orderedInsert r) (List.orderedInsert r a S)) :=
            by rw [ih']
        _ = (y :: ys).foldr (List.orderedInsert r)
              (List.orderedInsert r a S) := rfl

theorem foldr_orderedInsert_swap {α : Type} (r : α → α → Prop)
    [DecidableRel r] [IsTrans α r] [IsTotal α r] (xs ys : List α)
    (h : ∀ x ∈ xs, ∀ y ∈ ys, ¬(r x y ∧ r y x)) (S : List α) :
    xs.foldr (List.orderedInsert r) (ys.foldr (List.orderedInsert r) S)
      = ys.foldr (List.orderedInsert r) (xs.foldr (List.orderedInsert r) S) := by
  induction xs with
  | nil => rfl
  | cons x xs ih =>
      have hx := h x (List.mem_cons_self x xs)
      have ih' := ih (fun x' hx' => h x' (List.mem_cons_of_mem x hx'))
      calc (x :: xs).foldr (List.orderedInsert r)
            (ys.foldr (List.orderedInsert r) S)
          = List.orderedInsert r x
              (xs.foldr (List.orderedInsert r)
                (ys.foldr (List.orderedInsert r) S)) := rfl
        _ = List.orderedInsert r x
              (ys.foldr (List.orderedInsert r)
                (xs.foldr (List.orderedInsert r) S)) := by rw [ih']
        _ = ys.foldr (List.orderedInsert r)
              (List.orderedInsert r x
                (xs.foldr (List.orderedInsert r) S)) :=
            orderedInsert_foldr_comm r x ys hx _
        _ = ys.foldr (List.orderedInsert r)
              ((x :: xs).foldr (List.orderedInsert r) S) := rfl

/-! ### The comparator order on findings -/

theorem findingLE_iff (a b : Finding) :
    findingLE a b ↔ a.file < b.file ∨ (a.file = b.file ∧
      (a.line < b.line ∨ (a.line = b.line ∧ a.column ≤ b.column))) := by
  unfold findingLE compareFindings
  split_ifs with h1 h2 h3 h4
  · constructor
    · intro _; exact Or.inl h1
    · intro _; norm_num
  · constructor
    · intro hc; exact absurd hc (by norm_num)
    · rintro (hf | ⟨e, _⟩)
      · exact absurd hf h1
      · exact absurd e (ne_of_gt h2)
  · have e : a.file = b.file := le_antisymm (not_lt.mp h2) (not_lt.mp h1)
    constructor
    · intro _; exact Or.inr ⟨e, Or.inl h3⟩
    · intro _; norm_num
  · constructor
    · intro hc; exact absurd hc (by norm_num)
    · rintro (hf | ⟨_, hl | ⟨hl, _⟩⟩)
      · exact absurd hf h1
      · omega
      · omega
  · have e : a.file = b.file := le_antisymm (not_lt.mp h2) (not_lt.mp h1)
    constructor
    · intro hc; exact Or.inr ⟨e, Or.inr ⟨by omega, by omega⟩⟩
    · rintro (hf | ⟨_, hl | ⟨_, hc⟩⟩)
      · exact absurd hf h1
      · omega
      · omega

instance : IsTotal Finding findingLE :=
  ⟨fun a b => by
    rw [findingLE_iff, findingLE_iff]
    rcases lt_trichotomy a.file b.file with h | h | h
    · exact Or.inl (Or.inl h)
    · rcases lt_trichotomy a.line b.line with h' | h' | h'
      · exact Or.inl (Or.inr ⟨h, Or.inl h'⟩)
      · rcases Nat.le_total a.column b.column with h'' | h''
        · exact Or.inl (Or.inr ⟨h, Or.inr ⟨h', h''⟩⟩)
        · exact Or.inr (Or.inr ⟨h.symm, Or.inr ⟨h'.symm, h''⟩⟩)
      · exact Or.inr (Or.inr ⟨h.symm, Or.inl h'⟩)
    · exact Or.inr (Or.inl h)⟩

instance : IsTrans Finding findingLE :=
  ⟨fun a b c hab hbc => by
    rw [findingLE_iff] at hab hbc ⊢
    rcases hab with h1 | ⟨e1, h1⟩
    · rcases hbc with h2 | ⟨e2, _⟩
      · exact Or.inl (lt_trans h1 h2)
      · exact Or.inl (e2 ▸ h1)
    · rcases hbc with h2 | ⟨e2, h2⟩
      · exact Or.inl (e1 ▸ h2)
      · refine Or.inr ⟨e1.trans e2, ?_⟩
        rcases h1 with h1 | ⟨l1, h1⟩
        · rcases h2 with h2 | ⟨l2, _⟩
          · exact Or.inl (lt_trans h1 h2)
          · exact Or.inl (l2 ▸ h1)
        · rcases h2 with h2 | ⟨l2, h2⟩
          · exact Or.inl (l1 ▸ h2)
          · exact Or.inr ⟨l1.trans l2, le_trans h1 h2⟩⟩

theorem not_tie_of_file_ne {a b : Finding} (h : a.file ≠ b.file) :
    ¬(findingLE a b ∧ findingLE b a) := by
  rw [findingLE_iff, findingLE_iff]
  rintro ⟨hab | ⟨e1, _⟩, hba | ⟨e2, _⟩⟩
  · exact absurd hba (asymm hab)
  · exact h e2.symm
  · exact h e1
  · exact h e1

/-! ### Collection and id assignment -/

theorem collect_cons (x : String × List Msg) (l : List (String × List Msg)) :
    collect (x :: l) = tagFile x ++ collect l := by
  simp [collect]

theorem file_of_mem_tagFile {a : Finding} {fm : String × List Msg}
    (h : a ∈ tagFile fm) : a.file = fm.1 := by
  simp only [tagFile, List.mem_map] at h
  obtain ⟨m, _, rfl⟩ := h
  rfl

theorem sortFindings_collect_perm (l₁ l₂ : List (String × List Msg))
    (h : l₁.Perm l₂) (hnd : (l₁.map Prod.fst).Nodup) :
    sortFindings (collect l₁) = sortFindings (collect l₂) := by
  induction h with
  | nil => rfl
  | cons x h ih =>
      have hnd' : ((_ : List (String × List Msg)).map Prod.fst).Nodup :=
        (List.nodup_cons.mp (by simpa using hnd)).2
      unfold sortFindings at *
      rw [collect_cons, collect_cons, insertionSort_append,
        insertionSort_append, ih hnd']
  | swap x y l =>
      have hxy : y.1 ≠ x.1 := by
        rw [List.map_cons, List.map_cons] at hnd
        have h1 := (List.nodup_cons.mp hnd).1
        exact fun e => h1 (e ▸ List.mem_cons_self x.1 (l.map Prod.fst))
      unfold sortFindings
      rw [collect_cons, collect_cons, collect_cons, collect_cons,
        insertionSort_append, insertionSort_append, insertionSort_append,
        insertionSort_append]
      exact foldr_orderedInsert_swap findingLE (tagFile y) (tagFile x)
        (fun a ha b hb => not_tie_of_file_ne
          (by rw [file_of_mem_tagFile ha, file_of_mem_tagFile hb]; exact hxy))
        _
  | trans h₁ h₂ ih₁ ih₂ =>
      exact (ih₁ hnd).trans (ih₂ ((h₁.map Prod.fst).nodup hnd))

theorem mem_assignIdsFrom {L : List Finding} {n : Nat} {b : Finding}
    (h : b ∈ assignIdsFrom n L) : ∃ a ∈ L, ∃ m, b = { a with id := m } := by
  induction L generalizing n with
  | nil => cases h
  | cons f L ih =>
      rcases List.mem_cons.mp h with rfl | h'
      · exact ⟨f, List.mem_cons_self f L, n, rfl⟩
      · obtain ⟨a, ha, m, rfl⟩ := ih h'
        exact ⟨a, List.mem_cons_of_mem f ha, m, rfl⟩

theorem findingLE_id_irrel {a b : Finding} {i j : Nat} :
    findingLE { a with id := i } { b with id := j } ↔ findingLE a b :=
  Iff.rfl

theorem pairwise_assignIdsFrom {L : List Finding} (n : Nat)
    (h : L.Pairwise findingLE) :
    (assignIdsFrom n L).Pairwise findingLE := by
  induction L generalizing n with
  | nil => exact List.Pairwise.nil
  | cons f L ih =>
      rcases List.pairwise_cons.mp h with ⟨hf, hL⟩
      refine List.pairwise_cons.mpr ⟨?_, ih (n + 1) hL⟩
      intro b hb
      obtain ⟨a, ha, m, rfl⟩ := mem_assignIdsFrom hb
      exact findingLE_id_irrel.mpr (hf a ha)

theorem map_id_assignIdsFrom (L : List Finding) (n : Nat) :
    (assignIdsFrom n L).map Finding.id = List.range' n L.length := by
  induction L generalizing n with
  | nil => rfl
  | cons f L ih => simp [assignIdsFrom, List.range'_succ, ih]

/-- C1: `runAnalysis` sorts all collected findings by (file ascending, line
ascending, column ascending) and then assigns sequential ids starting at 1;
analyzing the same unchanged content twice — the same per-file messages,
with possibly different file-enumeration order over the (distinct) file
paths — yields identical ordered findings with identical ids, the output is
ordered by the comparator, and the ids are exactly 1, 2, …, n. -/
theorem c1_runAnalysis_deterministic (files₁ files₂ : List (String × List Msg))
    (hperm : files₁.Perm files₂) (hnd : (files₁.map Prod.fst).Nodup) :
    runAnalysisModel files₁ = runAnalysisModel files₂ ∧
    (runAnalysisModel files₁).Pairwise findingLE ∧
    (runAnalysisModel files₁).map Finding.id
      = List.range' 1 (collect files₁).length := by
  refine ⟨?_, ?_, ?_⟩
  · unfold runAnalysisModel
    rw [sortFindings_collect_perm files₁ files₂ hperm hnd]
  · unfold runAnalysisModel assignIds sortFindings
    exact pairwise_assignIdsFrom 1
      (List.sorted_insertionSort findingLE (collect files₁))
  · unfold runAnalysisModel assignIds sortFindings
    rw [map_id_assignIdsFrom]
    rw [List.length_insertionSort]

/-- C1 witness: a concrete two-file project analyzed in both enumeration
orders. -/
theorem c1_runAnalysis_deterministic_witness :
    (([("b.js", [⟨3, 1, "await-in-loop", "m1", false⟩]),
       ("a.js", [⟨2, 5, "promise-resolve-then", "m2", true⟩])] :
        List (String × List Msg)).Perm
      [("a.js", [⟨2, 5, "promise-resolve-then", "m2", true⟩]),
       ("b.js", [⟨3, 1, "await-in-loop", "m1", false⟩])] ∧
     (([("b.js", [⟨3, 1, "await-in-loop", "m1", false⟩]),
        ("a.js", [⟨2, 5, "promise-resolve-then", "m2", true⟩])] :
         List (String × List Msg)).map Prod.fst).Nodup) ∧
    runAnalysisModel
        [("b.js", [⟨3, 1, "await-in-loop", "m1", false⟩]),
         ("a.js", [⟨2, 5, "promise-resolve-then", "m2", true⟩])]
      = runAnalysisModel
        [("a.js", [⟨2, 5, "promise-resolve-then", "m2", true⟩]),
         ("b.js", [⟨3, 1, "await-in-loop", "m1", false⟩])] :=
  ⟨⟨by decide, by decide⟩,
    (c1_runAnalysis_deterministic _ _ (by decide) (by decide)).1⟩

/-! ### Tracer event store -/

theorem mapGet_cons (p : Nat × TEvent) (s : TraceState) (k : Nat) :
    mapGet (p :: s) k = if p.1 = k then some p.2 else mapGet s k := by
  by_cases hp : p.1 = k
  · rw [if_pos hp]
    unfold mapGet
    rw [List.find?_cons_of_pos _ (by simpa using hp)]
    rfl
  · rw [if_neg hp]
    unfold mapGet
    rw [List.find?_cons_of_neg _ (by simpa using hp)]

theorem mapGet_replace_ne (s : TraceState) (k k' : Nat) (v : TEvent)
    (h : k ≠ k') :
    mapGet (s.map (fun p => if p.1 = k then (k, v) else p)) k'
      = mapGet s k' := by
  induction s with
  | nil => rfl
  | cons p s ih =>
      by_cases hp : p.1 = k
      · rw [List.map_cons, if_pos hp, mapGet_cons, mapGet_cons, if_neg h,
          if_neg (hp ▸ h), ih]
      · rw [List.map_cons, if_neg hp, mapGet_cons, mapGet_cons, ih]

theorem mapGet_replace_self (s : TraceState) (k : Nat) (v : TEvent)
    (hany : s.any (fun p => p.1 = k) = true) :
    mapGet (s.map (fun p => if p.1 = k then (k, v) else p)) k = some v := by
  induction s with
  | nil => cases hany
  | cons p s ih =>
      by_cases hp : p.1 = k
      · rw [List.map_cons, if_pos hp, mapGet_cons, if_pos rfl]
      · have htail : s.any (fun p => p.1 = k) = true := by
          rcases List.any_eq_true.mp hany with ⟨q, hq, hq'⟩
          rcases List.mem_cons.mp hq with rfl | hq
          · exact absurd (by simpa using hq') hp
          · exact List.any_eq_true.mpr ⟨q, hq, hq'⟩
        rw [List.map_cons, if_neg hp, mapGet_cons, if_neg hp, ih htail]

theorem mapGet_append_single_ne (s : TraceState) (k k' : Nat) (v : TEvent)
    (h : k ≠ k') : mapGet (s ++ [(k, v)]) k' = mapGet s k' := by
  induction s with
  | nil => simp [mapGet_cons, h, mapGet]
  | cons p s ih => rw [List.cons_append, mapGet_cons, mapGet_cons, ih]

theorem mapGet_append_single_self (s : TraceState) (k : Nat) (v : TEvent)
    (hnone : s.any (fun p => p.1 = k) = false) :
    mapGet (s ++ [(k, v)]) k = some v := by
  induction s with
  | nil => simp [mapGet_cons]
  | cons p s ih =>
      rw [List.any_cons, Bool.or_eq_false_iff] at hnone
      rw [List.cons_append, mapGet_cons,
        if_neg (by simpa using hnone.1), ih hnone.2]

theorem mapGet_mapSet_self (s : TraceState) (k : Nat) (v : TEvent) :
    mapGet (mapSet s k v) k = some v := by
  unfold mapSet
  by_cases hk : s.any (fun p => p.1 = k) = true
  · rw [if_pos hk]
    exact mapGet_replace_self s k v hk
  · rw [if_neg hk]
    exact mapGet_append_single_self s k v (Bool.eq_false_iff.mpr hk)

theorem mapGet_mapSet_ne (s : TraceState) {k k' : Nat} (v : TEvent)
    (h : k ≠ k') : mapGet (mapSet s k v) k' = mapGet s k' := by
  unfold mapSet
  split
  · exact mapGet_replace_ne s k k' v h
  · exact mapGet_append_single_ne s k k' v h

theorem mapGet_closeEvent_ne (s : TraceState) {k aid : Nat} (t : Nat)
    (h : k ≠ aid) : mapGet (closeEvent s k t) aid = mapGet s aid := by
  cases hm : mapGet s k with
  | none => simp [closeEvent, hm]
  | some evt =>
      by_cases hend : evt.endTime = none
      · simp [closeEvent, hm, hend, mapGet_mapSet_ne s _ h]
      · simp [closeEvent, hm, hend]

theorem mapGet_hookInit_ne (s : TraceState) {k aid : Nat} (g : Nat)
    (ty : String) (t : Nat) (loc : Option String) (org : Option Origin)
    (h : k ≠ aid) : mapGet (hookInit s k g ty t loc org) aid = mapGet s aid := by
  by_cases hty : ty = "PROMISE"
  · simp [hookInit, hty, mapGet_mapSet_ne s _ h]
  · simp [hookInit, hty]

theorem endOf_closeEvent_preserved (s : TraceState) (aid : Nat) {t : Nat}
    (k tt : Nat) (hset : endOf s aid = some t) :
    endOf (closeEvent s k tt) aid = some t := by
  by_cases hk : k = aid
  · subst hk
    cases hm : mapGet s k with
    | none => simpa [closeEvent, hm] using hset
    | some evt =>
        have hend : evt.endTime = some t := by
          simpa [endOf, hm] using hset
        simpa [closeEvent, hm, hend] using hset
  · have hmg := mapGet_closeEvent_ne s tt hk
    simp only [endOf, hmg]
    exact hset

theorem endOf_preserved (s : TraceState) (aid : Nat) {t : Nat}
    (ops : List HookOp) (hset : endOf s aid = some t)
    (hni : ∀ op ∈ ops, isInitFor aid op = false) :
    endOf (applyOps s ops) aid = some t := by
  induction ops generalizing s with
  | nil => exact hset
  | cons op ops ih =>
      have hni' : ∀ op' ∈ ops, isInitFor aid op' = false :=
        fun op' h' => hni op' (List.mem_cons_of_mem op h')
      refine ih (applyOp s op) ?_ hni'
      cases op with
      | init k g ty tt loc org =>
          have hk : k ≠ aid := by
            have := hni _ (List.mem_cons_self _ ops)
            simpa [isInitFor] using this
          have hmg := mapGet_hookInit_ne s g ty tt loc org hk
          simp only [applyOp, endOf, hmg]
          exact hset
      | promiseResolve k tt => exact endOf_closeEvent_preserved s aid k tt hset
      | destroy k tt => exact endOf_closeEvent_preserved s aid k tt hset

/-- C2: for a tracked task whose record exists with `end` unset, running any
sequence of lifecycle callbacks (none of which re-creates the same id) sets
`end` to the timestamp of the first settlement (`promiseResolve`) or
teardown (`destroy`) callback for that id, and every later settlement or
teardown leaves it unchanged: the first observed transition wins, and if no
transition targets the task, `end` stays unset. -/
theorem c2_end_single_assignment (s : TraceState) (aid : Nat) (e : TEvent)
    (ops : List HookOp) (hs : mapGet s aid = some e) (he : e.endTime = none)
    (hni : ∀ op ∈ ops, isInitFor aid op = false) :
    endOf (applyOps s ops) aid = ops.findSome? (settleTime aid) := by
  induction ops generalizing s e with
  | nil => simp [applyOps, endOf, hs, he]
  | cons op ops ih =>
      have hni' : ∀ op' ∈ ops, isInitFor aid op' = false :=
        fun op' h' => hni op' (List.mem_cons_of_mem op h')
      cases op with
      | init k g ty tt loc org =>
          have hk : k ≠ aid := by
            have := hni _ (List.mem_cons_self _ ops)
            simpa [isInitFor] using this
          have hs' : mapGet (hookInit s k g ty tt loc org) aid = some e := by
            rw [mapGet_hookInit_ne s g ty tt loc org hk]
            exact hs
          have hrec := ih (hookInit s k g ty tt loc org) e hs' he hni'
          simpa [applyOps, applyOp, List.findSome?_cons, settleTime]
            using hrec
      | promiseResolve k tt =>
          by_cases hk : k = aid
          · subst hk
            have hstep : endOf (closeEvent s k tt) k = some tt := by
              simp [closeEvent, hs, he, endOf, mapGet_mapSet_self]
            have hrest := endOf_preserved (closeEvent s k tt) k ops hstep hni'
            simpa [applyOps, applyOp, hookPromiseResolve,
              List.findSome?_cons, settleTime] using hrest
          · have hs' : mapGet (closeEvent s k tt) aid = some e := by
              rw [mapGet_closeEvent_ne s tt hk]
              exact hs
            have hrec := ih (closeEvent s k tt) e hs' he hni'
            simpa [applyOps, applyOp, hookPromiseResolve,
              List.findSome?_cons, settleTime, hk] using hrec
      | destroy k tt =>
          by_cases hk : k = aid
          · subst hk
            have hstep : endOf (closeEvent s k tt) k = some tt := by
              simp [closeEvent, hs, he, endOf, mapGet_mapSet_self]
            have hrest := endOf_preserved (closeEvent s k tt) k ops hstep hni'
            simpa [applyOps, applyOp, hookDestroy,
              List.findSome?_cons, settleTime] using hrest
          · have hs' : mapGet (closeEvent s k tt) aid = some e := by
              rw [mapGet_closeEvent_ne s tt hk]
              exact hs
            have hrec := ih (closeEvent s k tt) e hs' he hni'
            simpa [applyOps, applyOp, hookDestroy,
              List.findSome?_cons, settleTime, hk] using hrec

/-- C2 witness: a task created at id 7, then settled at 5, torn down at 9
and settled again at 11 — `end` keeps the first timestamp 5. -/
theorem c2_end_single_assignment_witness :
    (mapGet (hookInit [] 7 1 "PROMISE" 0 none none) 7
        = some { id := 7, triggerId := 1, type := "PROMISE", start := 0,
                 endTime := none, location := none, origin := none } ∧
      (∀ op ∈ ([.promiseResolve 7 5, .destroy 7 9, .promiseResolve 7 11] :
          List HookOp), isInitFor 7 op = false)) ∧
    endOf (applyOps (hookInit [] 7 1 "PROMISE" 0 none none)
        [.promiseResolve 7 5, .destroy 7 9, .promiseResolve 7 11]) 7
      = some 5 :=
  ⟨⟨by decide, by decide⟩,
    c2_end_single_assignment _ 7
      { id := 7, triggerId := 1, type := "PROMISE", start := 0,
        endTime := none, location := none, origin := none }
      _ (by decide) (by decide) (by decide)⟩

/-! ### Tracer flush -/

instance : IsTotal TEvent startLE :=
  ⟨fun a b => Nat.le_total a.start b.start⟩

instance : IsTrans TEvent startLE :=
  ⟨fun _ _ _ hab hbc => Nat.le_trans hab hbc⟩

/-- C10: `flush` serializes all recorded events sorted ascending by their
creation timestamp; it is registered for `beforeExit`, `exit`, `SIGINT` and
`SIGTERM`, and every one of those hooks invokes the very same flush of the
same store, so repeated firings re-write the same content; a successful
write produces exactly the sorted content plus a terminal message, a write
failure is caught and turned into a terminal message only — in both cases
`flush` returns normally, never propagating an exception into the host
program. -/
theorem c10_flush_safe (write : List TEvent → Except String Unit)
    (outPath : String) (s : TraceState) :
    registeredExitHooks = ["beforeExit", "exit", "SIGINT", "SIGTERM"] ∧
    (∀ h ∈ registeredExitHooks,
      runExitHook h write outPath s = some (flushExcept write outPath s)) ∧
    (flushExcept write outPath s).isOk = true ∧
    (flushContent s).Pairwise startLE ∧
    (∀ u, write (flushContent s) = Except.ok u →
      flushExcept write outPath s
        = Except.ok { written := some (flushContent s),
                      consoleErrors :=
                        [flushOkMsg (flushContent s).length outPath] }) ∧
    (∀ e, write (flushContent s) = Except.error e →
      flushExcept write outPath s
        = Except.ok { written := none, consoleErrors := [flushErrMsg e] }) := by
  have hcases :
      (flushExcept write outPath s).isOk = true ∧
      (∀ u, write (flushContent s) = Except.ok u →
        flushExcept write outPath s
          = Except.ok { written := some (flushContent s),
                        consoleErrors :=
                          [flushOkMsg (flushContent s).length outPath] }) ∧
      (∀ e, write (flushContent s) = Except.error e →
        flushExcept write outPath s
          = Except.ok { written := none,
                        consoleErrors := [flushErrMsg e] }) := by
    cases hw : write (flushContent s) with
    | ok u =>
        refine ⟨?_, ?_, ?_⟩
        · simp [flushExcept, tryCatch, tryCatchThe, MonadExceptOf.tryCatch,
            Except.tryCatch, hw, Bind.bind, Except.bind, Except.isOk,
            Except.toBool, Pure.pure, Except.pure]
        · intro u' _
          simp [flushExcept, tryCatch, tryCatchThe, MonadExceptOf.tryCatch,
            Except.tryCatch, hw, Bind.bind, Except.bind, Pure.pure,
            Except.pure]
        · intro e he
          cases he
    | error e =>
        refine ⟨?_, ?_, ?_⟩
        · simp [flushExcept, tryCatch, tryCatchThe, MonadExceptOf.tryCatch,
            Except.tryCatch, hw, Bind.bind, Except.bind, Except.isOk,
            Except.toBool, Pure.pure, Except.pure]
        · intro u' hu
          cases hu
        · intro e' he
          cases he
          simp [flushExcept, tryCatch, tryCatchThe, MonadExceptOf.tryCatch,
            Except.tryCatch, hw, Bind.bind, Except.bind, Pure.pure,
            Except.pure]
  exact ⟨rfl,
    fun h hh => by simp [runExitHook, hh],
    hcases.1,
    (by
      unfold flushContent sortByStart
      exact List.sorted_insertionSort startLE (s.map (fun p => p.2))),
    hcases.2.1,
    hcases.2.2⟩

/-- C10 witness: a two-event store flushed with a succeeding writer and with
a failing writer. -/
theorem c10_flush_safe_witness :
    flushExcept (fun _ => Except.ok ()) "trace.json"
        [(3, { id := 3, triggerId := 1, type := "PROMISE", start := 8,
               endTime := none, location := none, origin := none }),
         (5, { id := 5, triggerId := 1, type := "PROMISE", start := 2,
               endTime := some 4, location := none, origin := none })]
      = Except.ok
          { written := some
              [{ id := 5, triggerId := 1, type := "PROMISE", start := 2,
                 endTime := some 4, location := none, origin := none },
               { id := 3, triggerId := 1, type := "PROMISE", start := 8,
                 endTime := none, location := none, origin := none }],
            consoleErrors := [flushOkMsg 2 "trace.json"] } ∧
    flushExcept (fun _ => Except.error "EACCES") "trace.json" []
      = Except.ok { written := none,
                    consoleErrors := [flushErrMsg "EACCES"] } :=
  ⟨by
    have h := (c10_flush_safe (fun _ => Except.ok ()) "trace.json"
      [(3, { id := 3, triggerId := 1, type := "PROMISE", start := 8,
             endTime := none, location := none, origin := none }),
       (5, { id := 5, triggerId := 1, type := "PROMISE", start := 2,
             endTime := some 4, location := none, origin := none })]).2.2.2.2.1
      () rfl
    simpa using h,
   by
    have h := (c10_flush_safe (fun _ => Except.error "EACCES") "trace.json"
      []).2.2.2.2.2 "EACCES" rfl
    simpa using h⟩

/-! ### Correlator -/

/-- C3: the correlator cannot match any event whose location carries a
column.  The greedy regex of `parseLocation` splits at the LAST colon, so a
`path:line:col` location (the very shape the tracer emits and the code
comment documents) parses as file `path:line` and line `col`: for a finding
spanning lines [10,14] of `a.js`, the event at `/proj/a.js:12:5` — file
`a.js`, line 12 under the documented reading, squarely in range — increments
nothing, while the two-part location `/proj/a.js:12` increments exactly that
finding, as the claim describes. -/
theorem c3_parseLocation_greedy_bug :
    parseLocation "/proj/a.js:12:5" = some ("/proj/a.js:12", 5) ∧
    crossReference "/proj"
        ⟨[{ id := 1, file := "a.js", funcStart := 10,
            funcSnippet := "a\nb\nc\nd\ne", rule := "await-in-loop" }]⟩
        [{ id := 21, triggerId := none, type := none, start := none,
           endTime := none, location := some "/proj/a.js:12:5",
           origin := some "user" }]
      = ⟨[], ⟨1, 1, 0, 0, []⟩⟩ ∧
    crossReference "/proj"
        ⟨[{ id := 1, file := "a.js", funcStart := 10,
            funcSnippet := "a\nb\nc\nd\ne", rule := "await-in-loop" }]⟩
        [{ id := 21, triggerId := none, type := none, start := none,
           endTime := none, location := some "/proj/a.js:12",
           origin := some "user" }]
      = ⟨[(1, 1)], ⟨1, 1, 0, 1, [("await-in-loop", 1)]⟩⟩ ∧
    crossReference "/proj"
        ⟨[{ id := 1, file := "a.js", funcStart := 10,
            funcSnippet := "a\nb\nc\nd\ne", rule := "await-in-loop" }]⟩
        [{ id := 21, triggerId := none, type := none, start := none,
           endTime := none, location := some "/proj/a.js:20",
           origin := some "user" }]
      = ⟨[], ⟨1, 1, 0, 0, []⟩⟩ := by
  refine ⟨by decide, by decide, by decide, by decide⟩

theorem bumpRanges_no_match (ranges : List FnRange) (rel : String)
    (line : Nat) (acc : XAcc)
    (h : ∀ r ∈ ranges, ¬(r.file = rel ∧ r.start ≤ line ∧ line ≤ r.stop)) :
    bumpRanges ranges rel line acc = acc := by
  induction ranges generalizing acc with
  | nil => rfl
  | cons r ranges ih =>
      unfold bumpRanges
      rw [List.foldl_cons, if_neg (h r (List.mem_cons_self r ranges))]
      exact ih acc (fun r' h' => h r' (List.mem_cons_of_mem r h'))

/-- C4 amended: appending one event always raises the total-event count by
one; an event with an absent or unparseable location is skipped before
everything else — it changes no per-finding counter, no per-rule counter,
and (unlike the claim's reading) no origin tally; an event with a parseable
location that lies in no finding's range changes no per-finding and no
per-rule counter but does bump exactly one origin tally (`user` when the
origin is the string `user`, the library tally otherwise). -/
theorem c4_skip_behavior (root : String) (report : SReport)
    (evs : List SrvEvent) (ev : SrvEvent) :
    (crossReference root report (evs ++ [ev])).summary.totalTraceEvents
        = evs.length + 1 ∧
    (locOf ev = none →
      ((crossReference root report (evs ++ [ev])).execCounts
          = (crossReference root report evs).execCounts ∧
        (crossReference root report (evs ++ [ev])).summary.userEvents
          = (crossReference root report evs).summary.userEvents ∧
        (crossReference root report (evs ++ [ev])).summary.libEvents
          = (crossReference root report evs).summary.libEvents ∧
        (crossReference root report (evs ++ [ev])).summary.byRuleExecuted
          = (crossReference root report evs).summary.byRuleExecuted)) ∧
    (∀ abs line, locOf ev = some (abs, line) →
      (∀ r ∈ mkRanges report,
        ¬(r.file = relativeTo root abs ∧ r.start ≤ line ∧ line ≤ r.stop)) →
      ((crossReference root report (evs ++ [ev])).execCounts
          = (crossReference root report evs).execCounts ∧
        (crossReference root report (evs ++ [ev])).summary.byRuleExecuted
          = (crossReference root report evs).summary.byRuleExecuted ∧
        (ev.origin = some "user" →
          (crossReference root report (evs ++ [ev])).summary.userEvents
            = (crossReference root report evs).summary.userEvents + 1 ∧
          (crossReference root report (evs ++ [ev])).summary.libEvents
            = (crossReference root report evs).summary.libEvents) ∧
        (ev.origin ≠ some "user" →
          (crossReference root report (evs ++ [ev])).summary.libEvents
            = (crossReference root report evs).summary.libEvents + 1 ∧
          (crossReference root report (evs ++ [ev])).summary.userEvents
            = (crossReference root report evs).summary.userEvents))) := by
  refine ⟨by simp [crossReference], ?_, ?_⟩
  · intro hloc
    have hx : ∀ acc : XAcc, xStep root (mkRanges report) acc ev = acc := by
      intro acc
      simp [xStep, hloc]
    simp [crossReference, List.foldl_append, hx]
  · intro abs line hloc hnr
    have hbump : ∀ acc : XAcc,
        bumpRanges (mkRanges report) (relativeTo root abs) line acc = acc :=
      fun acc => bumpRanges_no_match _ _ _ acc hnr
    by_cases ho : ev.origin = some "user"
    · have hx : ∀ acc : XAcc, xStep root (mkRanges report) acc ev
          = { acc with userEvents := acc.userEvents + 1 } := by
        intro acc
        simp [xStep, hloc, hbump, ho]
      refine ⟨?_, ?_, fun _ => ⟨?_, ?_⟩, fun hne => absurd ho hne⟩ <;>
        simp [crossReference, List.foldl_append, hx]
    · have hx : ∀ acc : XAcc, xStep root (mkRanges report) acc ev
          = { acc with libEvents := acc.libEvents + 1 } := by
        intro acc
        simp [xStep, hloc, hbump, ho]
      refine ⟨?_, ?_, fun hu => absurd hu ho, fun _ => ⟨?_, ?_⟩⟩ <;>
        simp [crossReference, List.foldl_append, hx]

/-- C4 counterexample: an event with no location and origin `user` is
counted in the total but in neither origin tally (`userEvents` stays 0,
`libEvents` stays 0), contradicting the claim that such events still count
toward the user/library origin tallies; likewise for a location that does
not parse. -/
theorem c4_counterexample :
    crossReference "/proj" ⟨[]⟩
        [{ id := 1, triggerId := none, type := none, start := none,
           endTime := none, location := none, origin := some "user" }]
      = ⟨[], ⟨1, 0, 0, 0, []⟩⟩ ∧
    crossReference "/proj" ⟨[]⟩
        [{ id := 2, triggerId := none, type := none, start := none,
           endTime := none, location := some "not-a-source-position",
           origin := some "user" }]
      = ⟨[], ⟨1, 0, 0, 0, []⟩⟩ := by
  refine ⟨by decide, by decide⟩

/-- C4 witness: the amended statement applied to one concrete skipped event
and one concrete out-of-range event. -/
theorem c4_skip_behavior_witness :
    (locOf { id := 1, triggerId := none, type := none, start := none,
             endTime := none, location := none, origin := some "user" }
        = none ∧
      (crossReference "/proj" ⟨[]⟩
          ([] ++ [{ id := 1, triggerId := none, type := none, start := none,
                    endTime := none, location := none,
                    origin := some "user" }])).summary.userEvents
        = (crossReference "/proj" ⟨[]⟩ []).summary.userEvents) ∧
    (crossReference "/proj"
        ⟨[{ id := 1, file := "a.js", funcStart := 10,
            funcSnippet := "a\nb\nc\nd\ne", rule := "await-in-loop" }]⟩
        ([] ++ [{ id := 2, triggerId := none, type := none, start := none,
                  endTime := none, location := some "/proj/a.js:20",
                  origin := some "user" }])).summary.userEvents
      = (crossReference "/proj"
          ⟨[{ id := 1, file := "a.js", funcStart := 10,
              funcSnippet := "a\nb\nc\nd\ne", rule := "await-in-loop" }]⟩
          []).summary.userEvents + 1 :=
  ⟨⟨rfl,
    ((c4_skip_behavior "/proj" ⟨[]⟩ []
      { id := 1, triggerId := none, type := none, start := none,
        endTime := none, location := none,
        origin := some "user" }).2.1 rfl).2.1⟩,
    (((c4_skip_behavior "/proj"
        ⟨[{ id := 1, file := "a.js", funcStart := 10,
            funcSnippet := "a\nb\nc\nd\ne", rule := "await-in-loop" }]⟩ []
        { id := 2, triggerId := none, type := none, start := none,
          endTime := none, location := some "/proj/a.js:20",
          origin := some "user" }).2.2 "/proj/a.js" 20
        (by decide) (by decide)).2.2.1 rfl).1⟩

/-! ### Rule exceptions abort the analysis (C5) -/

theorem verifyFiles_error {α : Type}
    (rules : List (α → Except String (Option Msg)))
    (pre post : List (String × List α)) (f : String × List α) (e : String)
    (hpre : ∀ fp ∈ pre, (verifyModel rules fp.2).isOk = true)
    (hf : verifyModel rules f.2 = Except.error e) :
    verifyFiles rules (pre ++ f :: post) = Except.error e := by
  induction pre with
  | nil => simp [verifyFiles, hf, Bind.bind, Except.bind]
  | cons p pre ih =>
      have hp : (verifyModel rules p.2).isOk = true :=
        hpre p (List.mem_cons_self p pre)
      have hpre' : ∀ fp ∈ pre, (verifyModel rules fp.2).isOk = true :=
        fun fp h' => hpre fp (List.mem_cons_of_mem p h')
      cases hv : verifyModel rules p.2 with
      | error e' => rw [hv] at hp; cases hp
      | ok msgs =>
          rw [List.cons_append]
          simp [verifyFiles, hv, ih hpre', Bind.bind, Except.bind]

/-- C5 amended: an exception thrown inside a single rule's evaluation
propagates out of `linter.verify` and, with no `try` anywhere in
`runAnalysis`, aborts the whole analysis: whenever one file's verification
throws `e` (and the files enumerated before it verify cleanly), the entire
run evaluates to that error — no report is produced and the remaining
files' findings are lost. -/
theorem c5_rule_exception_aborts {α : Type}
    (rules : List (α → Except String (Option Msg)))
    (pre post : List (String × List α)) (f : String × List α) (e : String)
    (hpre : ∀ fp ∈ pre, (verifyModel rules fp.2).isOk = true)
    (hf : verifyModel rules f.2 = Except.error e) :
    runAnalysisE rules (pre ++ f :: post) = Except.error e := by
  have h := verifyFiles_error rules pre post f e hpre hf
  simp [runAnalysisE, h, Bind.bind, Except.bind]

/-- C5 counterexample: a rule that throws on the first file's only node
makes the whole two-file analysis evaluate to the thrown error, instead of
continuing with the remaining rules, nodes and files and reporting the
second file's findings as the claim states. -/
theorem c5_counterexample :
    runAnalysisE
        [fun n : Nat => if n = 0 then Except.error "boom" else Except.ok none]
        [("a.js", [0]), ("b.js", [1])]
      = Except.error "boom" := by
  rfl

/-- C5 witness: the amended statement at a concrete throwing rule. -/
theorem c5_rule_exception_aborts_witness :
    ((∀ fp ∈ ([("ok.js", [1])] : List (String × List Nat)),
        (verifyModel
          [fun n : Nat =>
            if n = 0 then Except.error "boom" else Except.ok none]
          fp.2).isOk = true) ∧
      verifyModel
          [fun n : Nat =>
            if n = 0 then Except.error "boom" else Except.ok none]
          [0]
        = Except.error "boom") ∧
    runAnalysisE
        [fun n : Nat => if n = 0 then Except.error "boom" else Except.ok none]
        ([("ok.js", [1])] ++ ("bad.js", [0]) :: [("later.js", [1])])
      = Except.error "boom" :=
  ⟨⟨by decide, by rfl⟩,
    c5_rule_exception_aborts _ [("ok.js", [1])] [("later.js", [1])]
      ("bad.js", [0]) "boom" (by decide) (by rfl)⟩

/-! ### Suspend-in-loop rule (C6) -/

theorem awaitInLoopCheck_cons_of (m : JNode) {anc : List JNode}
    (h : awaitInLoopCheck anc = true) :
    awaitInLoopCheck (m :: anc) = true := by
  unfold awaitInLoopCheck at h ⊢
  rw [List.any_cons, h, Bool.or_true]

theorem awaitInLoopCheck_cons_notLoop (m : JNode) {anc : List JNode}
    (h : awaitInLoopCheck anc = false) (hm : flaggedLoop m = false) :
    awaitInLoopCheck (m :: anc) = false := by
  unfold awaitInLoopCheck at h ⊢
  rw [List.any_cons, h, hm, Bool.or_false]

theorem awaitInLoopVisit_flagged (n : JNode) :
    ∀ ancestors, awaitInLoopCheck ancestors = true →
      awaitInLoopVisit ancestors n = awaitLocs n := by
  induction n with
  | forStmt l b ih =>
      intro anc h
      exact ih _ (awaitInLoopCheck_cons_of _ h)
  | forInStmt l b ih =>
      intro anc h
      exact ih _ (awaitInLoopCheck_cons_of _ h)
  | forOfStmt l aw b ih =>
      intro anc h
      exact ih _ (awaitInLoopCheck_cons_of _ h)
  | whileStmt l b ih =>
      intro anc h
      exact ih _ (awaitInLoopCheck_cons_of _ h)
  | doWhileStmt l b ih =>
      intro anc h
      exact ih _ (awaitInLoopCheck_cons_of _ h)
  | awaitExpr l a ih =>
      intro anc h
      simp [awaitInLoopVisit, awaitLocs, h,
        ih _ (awaitInLoopCheck_cons_of _ h)]
  | seqStmt a b iha ihb =>
      intro anc h
      simp [awaitInLoopVisit, awaitLocs,
        iha _ (awaitInLoopCheck_cons_of _ h),
        ihb _ (awaitInLoopCheck_cons_of _ h)]
  | leaf l =>
      intro anc h
      rfl

theorem awaitInLoopVisit_unflagged (n : JNode) :
    ∀ ancestors, awaitInLoopCheck ancestors = false →
      hasLoopNode n = false → awaitInLoopVisit ancestors n = [] := by
  induction n with
  | forStmt l b ih => intro anc h hn; cases hn
  | forInStmt l b ih => intro anc h hn; cases hn
  | forOfStmt l aw b ih => intro anc h hn; cases hn
  | whileStmt l b ih => intro anc h hn; cases hn
  | doWhileStmt l b ih => intro anc h hn; cases hn
  | awaitExpr l a ih =>
      intro anc h hn
      simp [awaitInLoopVisit, h,
        ih (JNode.awaitExpr l a :: anc)
          (awaitInLoopCheck_cons_notLoop _ h rfl)
          (by simpa [hasLoopNode] using hn)]
  | seqStmt a b iha ihb =>
      intro anc h hn
      rw [hasLoopNode, Bool.or_eq_false_iff] at hn
      simp [awaitInLoopVisit,
        iha (JNode.seqStmt a b :: anc)
          (awaitInLoopCheck_cons_notLoop _ h rfl) hn.1,
        ihb (JNode.seqStmt a b :: anc)
          (awaitInLoopCheck_cons_notLoop _ h rfl) hn.2]
  | leaf l => intro anc h hn; rfl

/-- C6: a loop body that contains exactly one await expression (at location
`l`) and no nested loop produces exactly one finding, located at that await
expression, under every ordinary loop form — `for`, `for-in`, plain
`for-of`, `while`, `do-while` — and zero findings under `for await … of`. -/
theorem c6_await_in_loop (l bl : Nat) (body : JNode)
    (h1 : awaitLocs body = [l]) (h2 : hasLoopNode body = false) :
    awaitInLoopFindings (.forStmt bl body) = [l] ∧
    awaitInLoopFindings (.forInStmt bl body) = [l] ∧
    awaitInLoopFindings (.forOfStmt bl false body) = [l] ∧
    awaitInLoopFindings (.whileStmt bl body) = [l] ∧
    awaitInLoopFindings (.doWhileStmt bl body) = [l] ∧
    awaitInLoopFindings (.forOfStmt bl true body) = [] := by
  refine ⟨?_, ?_, ?_, ?_, ?_, ?_⟩
  · rw [awaitInLoopFindings, awaitInLoopVisit,
      awaitInLoopVisit_flagged body [JNode.forStmt bl body] rfl, h1]
  · rw [awaitInLoopFindings, awaitInLoopVisit,
      awaitInLoopVisit_flagged body [JNode.forInStmt bl body] rfl, h1]
  · rw [awaitInLoopFindings, awaitInLoopVisit,
      awaitInLoopVisit_flagged body [JNode.forOfStmt bl false body] rfl, h1]
  · rw [awaitInLoopFindings, awaitInLoopVisit,
      awaitInLoopVisit_flagged body [JNode.whileStmt bl body] rfl, h1]
  · rw [awaitInLoopFindings, awaitInLoopVisit,
      awaitInLoopVisit_flagged body [JNode.doWhileStmt bl body] rfl, h1]
  · rw [awaitInLoopFindings, awaitInLoopVisit,
      awaitInLoopVisit_unflagged body [JNode.forOfStmt bl true body] rfl h2]

/-- C6 witness: the body `leaf; await (leaf)` with its single await at
location 5. -/
theorem c6_await_in_loop_witness :
    (awaitLocs (.seqStmt (.leaf 1) (.awaitExpr 5 (.leaf 6))) = [5] ∧
      hasLoopNode (.seqStmt (.leaf 1) (.awaitExpr 5 (.leaf 6))) = false) ∧
    awaitInLoopFindings
        (.forStmt 2 (.seqStmt (.leaf 1) (.awaitExpr 5 (.leaf 6)))) = [5] ∧
    awaitInLoopFindings
        (.forOfStmt 2 true (.seqStmt (.leaf 1) (.awaitExpr 5 (.leaf 6))))
      = [] :=
  ⟨⟨by decide, by decide⟩,
    (c6_await_in_loop 5 2 _ (by decide) (by decide)).1,
    (c6_await_in_loop 5 2 _ (by decide) (by decide)).2.2.2.2.2⟩

/-! ### Redundant-suspended-return rule (C7) -/

/-- C7: a `return await …` inside an async function (the innermost enclosing
function is async) is always reported; the automatic fix is withheld
(`fix` yields nothing) exactly when some ancestor is a `try` statement, and
otherwise the fix removes the `await` token of the argument. -/
theorem c7_report_always_fix_conditional (l : Nat) (ancestors : List AncNode)
    (f : AncNode) (hf : ancestors.reverse.find? isFunctionAnc = some f)
    (ha : ancIsAsync f = true) :
    asyncAwaitedReturnCheck (.awaitArg l) ancestors
        = some { loc := l,
                 fix := if ancestors.any isTryAnc then none
                        else some (.removeToken l) } ∧
    ((∃ a ∈ ancestors, isTryAnc a = true) →
      asyncAwaitedReturnCheck (.awaitArg l) ancestors = some ⟨l, none⟩) ∧
    ((∀ a ∈ ancestors, isTryAnc a = false) →
      asyncAwaitedReturnCheck (.awaitArg l) ancestors
        = some ⟨l, some (.removeToken l)⟩) := by
  have hbase : asyncAwaitedReturnCheck (.awaitArg l) ancestors
      = some { loc := l,
               fix := if ancestors.any isTryAnc then none
                      else some (.removeToken l) } := by
    unfold asyncAwaitedReturnCheck
    rw [hf]
    dsimp only
    rw [if_pos ha]
  refine ⟨hbase, ?_, ?_⟩
  · intro htry
    rw [hbase, if_pos (List.any_eq_true.mpr htry)]
  · intro hno
    have : ancestors.any isTryAnc = false := by
      rw [Bool.eq_false_iff]
      intro hc
      obtain ⟨a, ha', hta⟩ := List.any_eq_true.mp hc
      rw [hno a ha'] at hta
      cases hta
    rw [hbase, this]
    rfl

/-- C7 witness: a `return await` at location 9 inside an async function
nested in a `try`, and one with no `try` around it. -/
theorem c7_report_always_fix_conditional_witness :
    (([AncNode.functionDeclaration true, AncNode.tryStatement,
        AncNode.blockStatement] :
          List AncNode).reverse.find? isFunctionAnc
        = some (AncNode.functionDeclaration true) ∧
      ancIsAsync (AncNode.functionDeclaration true) = true) ∧
    asyncAwaitedReturnCheck (.awaitArg 9)
        [AncNode.functionDeclaration true, AncNode.tryStatement,
         AncNode.blockStatement]
      = some ⟨9, none⟩ ∧
    asyncAwaitedReturnCheck (.awaitArg 9)
        [AncNode.functionDeclaration true, AncNode.blockStatement]
      = some ⟨9, some (.removeToken 9)⟩ :=
  ⟨⟨by decide, by decide⟩,
    (c7_report_always_fix_conditional 9
        [AncNode.functionDeclaration true, AncNode.tryStatement,
         AncNode.blockStatement]
        (AncNode.functionDeclaration true) (by decide) (by decide)).2.1
      ⟨AncNode.tryStatement, by decide, by decide⟩,
    (c7_report_always_fix_conditional 9
        [AncNode.functionDeclaration true, AncNode.blockStatement]
        (AncNode.functionDeclaration true) (by decide) (by decide)).2.2
      (by decide)⟩

/-! ### Single-arm executor rule (C8) -/

/-- C8 counterexample: `new Promise((res, rej) => { 0; })` uses neither of
its two completion callables, yet the rule reports it — so "reports exactly
when the executor uses only one of its two completion callables" is false:
here the used-callable count is 0, not 1, and the rule still reports. -/
theorem c8_counterexample :
    executorOneArgUsedReports
        (.newE (.ident "Promise")
          (.cons (.funcE .arrowFunctionExpression false ["res", "rej"]
            (.blockE (.cons (.exprStmt (.numLit 0)) .nil))) .nil)) = true ∧
    usedCallableCount ["res", "rej"]
        (.blockE (.cons (.exprStmt (.numLit 0)) .nil)) = 0 := by
  refine ⟨by decide, by decide⟩

/-- C8 amended: on `new Promise(executor)` with a single function or arrow
executor, the rule reports exactly when the executor uses fewer than two of
its completion callables — zero or one of (fulfill, reject) — equivalently,
unless it declares at least two parameters and uses both. -/
theorem c8_reports_iff_not_both_used (k : FuncKind)
    (hk : k ≠ .functionDeclaration) (isAsync : Bool) (params : List String)
    (body : ENode) :
    executorOneArgUsedReports
        (.newE (.ident "Promise")
          (.cons (.funcE k isAsync params body) .nil)) = true
      ↔ usedCallableCount params body < 2 := by
  unfold executorOneArgUsedReports
  dsimp only
  rw [if_pos ⟨rfl, hk⟩]
  unfold usedCallableCount
  cases hr : usesResolveOf params body with
  | false =>
      cases hj : usesRejectOf params body
      · simp [hr, hj]
      · simp [hr, hj]
  | true =>
      cases hj : usesRejectOf params body with
      | false =>
          simp [hr, hj]
      | true =>
          have hlen : 2 ≤ params.length := by
            unfold usesRejectOf at hj
            cases hp : params.get? 1 with
            | none => rw [hp] at hj; cases hj
            | some p =>
                have h1 : 1 < params.length := by
                  rcases List.get?_eq_some.mp hp with ⟨h, _⟩
                  exact h
                omega
          simp [hr, hj, Nat.not_lt.mpr hlen]

/-- C8 witness: the amended statement at the concrete executor
`(res, rej) => { res(1); }`, which uses exactly one callable and is
reported. -/
theorem c8_reports_iff_not_both_used_witness :
    (FuncKind.arrowFunctionExpression ≠ FuncKind.functionDeclaration) ∧
    (executorOneArgUsedReports
        (.newE (.ident "Promise")
          (.cons (.funcE .arrowFunctionExpression false ["res", "rej"]
            (.blockE (.cons (.exprStmt (.callE (.ident "res")
              (.cons (.numLit 1) .nil))) .nil))) .nil)) = true
      ↔ usedCallableCount ["res", "rej"]
          (.blockE (.cons (.exprStmt (.callE (.ident "res")
            (.cons (.numLit 1) .nil))) .nil)) < 2) :=
  ⟨by decide,
    c8_reports_iff_not_both_used .arrowFunctionExpression (by decide)
      false ["res", "rej"]
      (.blockE (.cons (.exprStmt (.callE (.ident "res")
        (.cons (.numLit 1) .nil))) .nil))⟩

/-! ### Redundant-wrapper rule (C9) -/

/-- C9: for `new Promise((p0, p1) => { inner.then(p0, p1); })` — the
executor's sole statement forwards both completion-callable parameters
through the inner value's `.then` — the rule's suggested fix text is
exactly the source text of `inner`, the object of the `.then` call (the
whole construction is replaced by that text); `inner`'s source text being
nonempty reflects that a real expression's source slice is never the empty
string. -/
theorem c9_fix_is_inner_source_text (k : FuncKind)
    (hk : k ≠ .functionDeclaration) (isAsync : Bool) (p0 p1 : String)
    (inner : ENode) (hne : srcText inner ≠ "") :
    redundantWrapperFix
        (.newE (.ident "Promise")
          (.cons (.funcE k isAsync [p0, p1]
            (.blockE (.cons (.exprStmt (.callE (.memberDot inner "then")
              (.cons (.ident p0) (.cons (.ident p1) .nil)))) .nil))) .nil))
      = some (srcText inner) := by
  unfold redundantWrapperFix redundantWrapperRepl
  dsimp only
  rw [if_pos ⟨rfl, hk⟩]
  simp [firstExprStmtExpr, calleeThenObj, eListGet?, hne]

/-- C9 witness: the concrete wrapper
`new Promise((resolve, reject) => { p.q.then(resolve, reject); })`, whose
fix text is `p.q`. -/
theorem c9_fix_is_inner_source_text_witness :
    (FuncKind.arrowFunctionExpression ≠ FuncKind.functionDeclaration ∧
      srcText (ENode.memberDot (.ident "p") "q") ≠ "") ∧
    redundantWrapperFix
        (.newE (.ident "Promise")
          (.cons (.funcE .arrowFunctionExpression false ["resolve", "reject"]
            (.blockE (.cons (.exprStmt (.callE
              (.memberDot (.memberDot (.ident "p") "q") "then")
              (.cons (.ident "resolve")
                (.cons (.ident "reject") .nil)))) .nil))) .nil))
      = some (srcText (ENode.memberDot (.ident "p") "q")) :=
  ⟨⟨by decide, by decide⟩,
    c9_fix_is_inner_source_text .arrowFunctionExpression (by decide) false
      "resolve" "reject" (.memberDot (.ident "p") "q") (by decide)⟩

end AsyncDoctor
